import Mathlib

/-!
Verification of the stock-tui core (src/main.rs) against its natural-language
specification.  The Rust code is shallowly embedded: `f64` values are modelled
as exact rationals `ℚ`, wall-clock instants as `Nat` seconds, fallible I/O as
`Except`/`Option`, and the background-fetch channel as an explicit list of
messages folded over the application state.  Every definition mirrors the
corresponding Rust item (named in its doc comment); definitions marked
"Modelled from the spec" are the spec-side comparisons used for refinement
claims.
-/

set_option linter.unusedVariables false
set_option linter.unnecessarySeqFocus false

/-- Mirrors `struct PriceData` (main.rs): `price`, `change`, `change_percent`. -/
structure PriceData where
  price : ℚ
  change : ℚ
  change_percent : ℚ
deriving DecidableEq

/-- Mirrors `struct Stock` (main.rs).  The `historical` field is omitted: no
claim touches it and it is never written by the code paths embedded here. -/
structure Stock where
  symbol : String
  display : String
  name : String
  quantity : ℚ
  cost_basis : ℚ
  price_data : Option PriceData
  portfolio_name : String
deriving DecidableEq

/-- Mirrors `enum SortColumn` (main.rs). -/
inductive SortColumn where
  | price
  | change
  | quantity
  | gain
  | gainPercent
deriving DecidableEq

/-- Mirrors `enum SortDirection` (main.rs). -/
inductive SortDirection where
  | ascending
  | descending
deriving DecidableEq

/-- Mirrors `enum FetchMessage` (main.rs); `FetchResult` is inlined as the two
arguments of the `price` constructor. -/
inductive FetchMessage where
  | price (symbol : String) (price_data : Option PriceData)
  | exchangeRate (rate : ℚ)
  | batchComplete
deriving DecidableEq

/-- Helper for `containsTW`: does the character list begin with `.TW`? -/
def twAtFront : List Char → Bool
  | '.' :: 'T' :: 'W' :: _ => true
  | _ => false

/-- Helper for `containsTW`: does `.TW` occur anywhere in the character list? -/
def twSub : List Char → Bool
  | [] => false
  | c :: rest => twAtFront (c :: rest) || twSub rest

/-- The market-classification expression `symbol.contains(".TW")` that the
source repeats at every classification site (save_stocks lines 322–323,
refresh_data lines 635–636, load_combined_stocks lines 692–693, sort_stocks
lines 724/731, calculate_summary line 813). -/
def containsTW (sym : String) : Bool := twSub sym.data

/-- Modelled from the spec: the "suffix match" classification rule the spec
describes (`.TW` as a *suffix* of the symbol), used to compare against the
substring rule the code actually applies. -/
def endsWithTW (sym : String) : Bool :=
  match sym.data.reverse with
  | 'W' :: 'T' :: '.' :: _ => true
  | _ => false

/-! ## Aggregation (`load_combined_stocks`, main.rs lines 645–698)

The Rust code folds every holding of every portfolio file (outer loop over
portfolios, inner loop over that file's stocks) into a `HashMap<String, Stock>`
keyed by symbol.  We model the `HashMap` as an association list and the double
loop as a `foldl` over the concatenation of all portfolio files' holdings.
The price-fetch and portfolio-label decoration performed afterwards do not
touch quantity or cost basis and are not part of this model. -/

/-- The aggregated map: symbol ↦ accumulated `Stock`. -/
abbrev AggMap := List (String × Stock)

/-- First-match association-list lookup, modelling `HashMap::get`. -/
def lookupA : AggMap → String → Option Stock
  | [], _ => none
  | (k, v) :: rest, sym => if k = sym then some v else lookupA rest sym

/-- The merge performed on an existing map entry (main.rs lines 657–671):
quantities add; the cost basis becomes the quantity-weighted mean when the
combined quantity is positive and `0.0` otherwise. -/
def mergeStock (existing incoming : Stock) : Stock :=
  let combined_qty := existing.quantity + incoming.quantity
  let weighted_cost :=
    if 0 < combined_qty then
      (existing.quantity * existing.cost_basis + incoming.quantity * incoming.cost_basis) / combined_qty
    else 0
  { existing with quantity := combined_qty, cost_basis := weighted_cost }

/-- One step of the aggregation loop: merge into the existing entry if the
symbol is present (`get_mut` branch), otherwise insert the stock as-is. -/
def aggStep : AggMap → Stock → AggMap
  | [], s => [(s.symbol, s)]
  | (k, v) :: rest, s =>
    if k = s.symbol then (k, mergeStock v s) :: rest else (k, v) :: aggStep rest s

/-- `load_combined_stocks` (main.rs lines 645–698), restricted to the
aggregation of quantity and cost basis: fold all holdings of all portfolio
files (concatenated in file order) into the symbol-keyed map. -/
def load_combined_stocks (holdings : List Stock) : AggMap :=
  holdings.foldl aggStep []

/-- Aggregated quantity recorded for a symbol (0 when the symbol is absent). -/
def qtyOf (m : AggMap) (sym : String) : ℚ :=
  match lookupA m sym with
  | some st => st.quantity
  | none => 0

/-- Aggregated cost basis recorded for a symbol (0 when the symbol is absent). -/
def costOf (m : AggMap) (sym : String) : ℚ :=
  match lookupA m sym with
  | some st => st.cost_basis
  | none => 0

/-- quantity·cost product recorded for a symbol (0 when absent). -/
def prodOf (m : AggMap) (sym : String) : ℚ :=
  match lookupA m sym with
  | some st => st.quantity * st.cost_basis
  | none => 0

/-- Modelled from the spec: `Σ quantity_i` over all holdings of one symbol. -/
def sumQty (sym : String) (hs : List Stock) : ℚ :=
  ((hs.filter fun s => s.symbol = sym).map Stock.quantity).sum

/-- Modelled from the spec: `Σ (quantity_i · costBasis_i)` over all holdings
of one symbol. -/
def sumProd (sym : String) (hs : List Stock) : ℚ :=
  ((hs.filter fun s => s.symbol = sym).map fun s => s.quantity * s.cost_basis).sum

/-- Convenience constructor for holdings in examples and witnesses. -/
def mkHolding (sym : String) (qty cost : ℚ) : Stock :=
  { symbol := sym, display := sym, name := sym, quantity := qty,
    cost_basis := cost, price_data := none, portfolio_name := "" }

/-! ## Price cache (`fetch_price`, main.rs lines 343–417)

Instants are modelled as `Nat` seconds (matching the second-granular
`Instant::elapsed().as_secs()` comparisons in the source).  The two fallback
tiers that a stale or missing in-process entry falls through to — the on-disk
cache file and the network endpoints — are abstracted as an environment: the
disk tier as `Option (mtime, parsed quote)` (`none` covering a missing,
unreadable or unparseable file, all of which the source swallows) and the
network as the `Option` result the endpoint loop would produce. -/

/-- `CACHE_DURATION_SECS` (main.rs line 27). -/
def CACHE_DURATION_SECS : Nat := 60

/-- The environment a `fetch_price` call falls through to when the in-process
entry for the symbol is stale or absent. -/
structure FetchEnv where
  fileCache : Option (Nat × PriceData)
  network : Option PriceData
deriving DecidableEq

/-- The tail of `fetch_price` (main.rs lines 351–416): try the disk-cache file
(fresh iff its mtime is within the window), then the network endpoints. -/
def fetch_price_uncached (env : FetchEnv) (now : Nat) : Option PriceData :=
  match env.fileCache with
  | some (mtime, data) =>
    if now - mtime < CACHE_DURATION_SECS then some data else env.network
  | none => env.network

/-- `fetch_price` (main.rs lines 343–417) for one symbol: return the
in-process entry `(data, insertedAt)` if its age is below
`CACHE_DURATION_SECS`, otherwise fall through to the disk tier and network.
The in-memory re-insertions performed on disk/network hits affect later calls
only, not the returned value modelled here. -/
def fetch_price (memEntry : Option (PriceData × Nat)) (env : FetchEnv) (now : Nat) :
    Option PriceData :=
  match memEntry with
  | some (data, time) =>
    if now - time < CACHE_DURATION_SECS then some data else fetch_price_uncached env now
  | none => fetch_price_uncached env now

/-! ## Quote fetcher (`fetch_price_blocking`, main.rs lines 971–1004)

Each endpoint attempt is abstracted as `Option EndpointMeta`: `none` covers a
network error, a JSON-decoding failure or a missing `chart.result[0]`, and
`some meta` carries the three optional numeric fields the source reads from
`result.meta`. -/

/-- The fields read from the endpoint response's `meta` object. -/
structure EndpointMeta where
  regularMarketPrice : Option ℚ
  previousClose : Option ℚ
  chartPreviousClose : Option ℚ
deriving DecidableEq

/-- `meta["regularMarketPrice"].as_f64().or_else(|| meta["previousClose"].as_f64())`. -/
def endpointPrice (m : EndpointMeta) : Option ℚ :=
  m.regularMarketPrice.orElse fun _ => m.previousClose

/-- `meta["previousClose"].as_f64().or_else(|| meta["chartPreviousClose"].as_f64())`. -/
def endpointPrev (m : EndpointMeta) : Option ℚ :=
  m.previousClose.orElse fun _ => m.chartPreviousClose

/-- One iteration of the endpoint loop (main.rs lines 978–1001): a quote is
produced iff both a price and a previous close can be extracted, with
`change = price − prev` and `change_percent = change / prev * 100`. -/
def parseEndpoint : Option EndpointMeta → Option PriceData
  | none => none
  | some m =>
    match endpointPrice m, endpointPrev m with
    | some price, some prev =>
      some { price := price, change := price - prev,
             change_percent := (price - prev) / prev * 100 }
    | _, _ => none

/-- `fetch_price_blocking` (main.rs lines 971–1004): try the endpoints in
order, returning the first successfully parsed quote, `None` if every attempt
fails. -/
def fetch_price_blocking : List (Option EndpointMeta) → Option PriceData
  | [] => none
  | r :: rest =>
    match parseEndpoint r with
    | some d => some d
    | none => fetch_price_blocking rest

/-! ## Holding store (`load_stocks_from_file` lines 280–312, `save_stocks`
lines 314–341)

File-system effects are abstracted: a load sees whether the path exists and,
if it does, either an open error or the file's lines (each line read may
itself fail, as with `BufRead::lines`); a save sees whether `File::create`
succeeds.  Numeric fields are parsed as plain signed decimals into `ℚ`
(exponent and non-finite `f64` spellings are not modelled; no claim involves
them). -/

/-- ASCII whitespace test modelling the characters `str::trim` strips in the
holding-file format. -/
def isWS (c : Char) : Bool := c = ' ' || c = '\t' || c = '\r' || c = '\n'

/-- `str::trim` on a character list. -/
def trimChars (cs : List Char) : List Char :=
  ((cs.dropWhile isWS).reverse.dropWhile isWS).reverse

/-- `str::split('|')` on a character list. -/
def splitBar : List Char → List (List Char)
  | [] => [[]]
  | c :: rest =>
    if c = '|' then [] :: splitBar rest
    else
      match splitBar rest with
      | h :: t => (c :: h) :: t
      | [] => [[c]]

/-- Accumulating digit parser: `some` iff every character is a digit. -/
def parseDigitsAux : List Char → Nat → Option Nat
  | [], acc => some acc
  | c :: rest, acc =>
    if c.isDigit then parseDigitsAux rest (acc * 10 + (c.toNat - 48)) else none

/-- Split a character list at its first `.`, if any. -/
def splitDotAux : List Char → Option (List Char × List Char)
  | [] => none
  | '.' :: rest => some ([], rest)
  | c :: rest => (splitDotAux rest).map fun p => (c :: p.1, p.2)

/-- Unsigned decimal: `digits`, `digits.`, `.digits` or `digits.digits`. -/
def parseUnsigned (cs : List Char) : Option ℚ :=
  match splitDotAux cs with
  | none =>
    if cs = [] then none
    else (parseDigitsAux cs 0).map fun n => (n : ℚ)
  | some (intPart, fracPart) =>
    if intPart = [] && fracPart = [] then none
    else
      match parseDigitsAux intPart 0, parseDigitsAux fracPart 0 with
      | some i, some f => some ((i : ℚ) + (f : ℚ) / ((10 : ℚ) ^ fracPart.length))
      | _, _ => none

/-- Models `s.trim().parse::<f64>().ok()` on the decimal literals the
holding-file format uses. -/
def parseNum (s : String) : Option ℚ :=
  match trimChars s.data with
  | '-' :: rest => (parseUnsigned rest).map fun q => -q
  | '+' :: rest => parseUnsigned rest
  | cs => parseUnsigned cs

/-- One line of the holding-file parse loop (main.rs lines 289–309): blank
lines and `#` comments are skipped, a line splits on `|` into at least three
fields or is skipped, and quantity/cost default to 0 when missing or
unparsable. -/
def parseLine (raw : String) : Option Stock :=
  let line := trimChars raw.data
  if line = [] || line.headD ' ' = '#' then none
  else
    let parts := splitBar line
    if 3 ≤ parts.length then
      some { symbol := String.mk (trimChars (parts.getD 0 [])),
             display := String.mk (trimChars (parts.getD 1 [])),
             name := String.mk (trimChars (parts.getD 2 [])),
             quantity := (parseNum (String.mk (parts.getD 3 []))).getD 0,
             cost_basis := (parseNum (String.mk (parts.getD 4 []))).getD 0,
             price_data := none,
             portfolio_name := "" }
    else none

/-- What a single load observes of the file system. -/
structure LoadEnv where
  pathExists : Bool
  openResult : Except String (List (Except String String))

/-- The line loop of `load_stocks_from_file`: a line-read error aborts the
whole load (`let line = line?`), parseable holdings accumulate in order. -/
def loadLines : List (Except String String) → Except String (List Stock)
  | [] => .ok []
  | .error e :: _ => .error e
  | .ok raw :: rest =>
    match parseLine raw with
    | some st => (loadLines rest).map fun tl => st :: tl
    | none => loadLines rest

/-- `load_stocks_from_file` (main.rs lines 280–312): a non-existent path
yields `Ok(vec![])`; an existing path propagates the open error or processes
the lines. -/
def load_stocks_from_file (env : LoadEnv) : Except String (List Stock) :=
  if !env.pathExists then .ok []
  else
    match env.openResult with
    | .error e => .error e
    | .ok lines => loadLines lines

/-- The Taiwan section written by `save_stocks` (main.rs line 322). -/
def save_tw_group (stocks : List Stock) : List Stock :=
  stocks.filter fun s => containsTW s.symbol

/-- The US section written by `save_stocks` (main.rs line 323). -/
def save_us_group (stocks : List Stock) : List Stock :=
  stocks.filter fun s => !containsTW s.symbol

/-- The lines `save_stocks` emits on success (main.rs lines 318–338): fixed
header, then a `# Taiwan Stocks` section when non-empty, then a `# US Stocks`
section when non-empty. -/
def save_lines (stocks : List Stock) : List String :=
  ["# Stock Portfolio Configuration",
   "# Format: SYMBOL|Display Name|Description|Quantity|Cost Basis", ""]
  ++ (if save_tw_group stocks = [] then []
      else "# Taiwan Stocks" ::
        ((save_tw_group stocks).map fun s =>
          s.symbol ++ "|" ++ s.display ++ "|" ++ s.name ++ "|" ++
            toString s.quantity ++ "|" ++ toString s.cost_basis) ++ [""])
  ++ (if save_us_group stocks = [] then []
      else "# US Stocks" ::
        ((save_us_group stocks).map fun s =>
          s.symbol ++ "|" ++ s.display ++ "|" ++ s.name ++ "|" ++
            toString s.quantity ++ "|" ++ toString s.cost_basis))

/-- `save_stocks` (main.rs lines 314–341): `File::create` failure propagates
as a hard error (`File::create(&path)?`); on success the rendered lines are
written. -/
def save_stocks (createOk : Bool) (stocks : List Stock) : Except String (List String) :=
  if createOk then .ok (save_lines stocks) else .error "create failed"

/-- The per-market split of the loaded portfolio in `refresh_data`
(main.rs line 635): `self.tw_stocks`. -/
def refresh_tw_split (stocks : List Stock) : List Stock :=
  stocks.filter fun s => containsTW s.symbol

/-- The per-market split of the loaded portfolio in `refresh_data`
(main.rs line 636): `self.us_stocks`. -/
def refresh_us_split (stocks : List Stock) : List Stock :=
  stocks.filter fun s => !containsTW s.symbol

/-- One iteration of the totals loop in `calculate_summary` (main.rs lines
807–823): positive-quantity priced holdings contribute `quantity·costBasis`
and `quantity·price`, converted by the exchange rate exactly when the symbol
is not classified as Taiwan-market. -/
def summaryStep (rate : ℚ) (acc : ℚ × ℚ × Nat) (st : Stock) : ℚ × ℚ × Nat :=
  if 0 < st.quantity then
    match st.price_data with
    | some d =>
      let cost := st.quantity * st.cost_basis
      let value := st.quantity * d.price
      if !containsTW st.symbol then
        (acc.1 + cost * rate, acc.2.1 + value * rate, acc.2.2 + 1)
      else
        (acc.1 + cost, acc.2.1 + value, acc.2.2 + 1)
    | none => acc
  else acc

/-- `calculate_summary` (main.rs lines 796–833): total cost, total value,
gain, gain percent, row count, priced-holding count. -/
def calculate_summary (rate : ℚ) (stocks : List Stock) : ℚ × ℚ × ℚ × ℚ × Nat × Nat :=
  let t := stocks.foldl (summaryStep rate) (0, 0, 0)
  let gain := t.2.1 - t.1
  let pct := if 0 < t.1 then gain / t.1 * 100 else 0
  (t.1, t.2.1, gain, pct, stocks.length, t.2.2)

/-! ## Ranking engine (`sort_stocks`, main.rs lines 700–763)

`f64::partial_cmp(..).unwrap_or(Equal)` on the (NaN-free) comparisons the
sorter performs is modelled by the total comparison `cmpQ` on `ℚ`.
`Vec::sort_by` is a stable sort; it is modelled by a stable insertion sort,
which produces the same output as any stable sort for a comparator induced by
a key order. -/

/-- Total comparison on `ℚ`, modelling `partial_cmp(..).unwrap_or(Equal)`. -/
def cmpQ (a b : ℚ) : Ordering :=
  if a < b then .lt else if b < a then .gt else .eq

/-- The gain amount the sorter compares under `SortColumn::Gain` (main.rs
lines 721–727): 0 unless quantity and cost basis are positive and a quote is
present; converted by the exchange rate for non-Taiwan symbols. -/
def gainValue (usd_twd : ℚ) (a : Stock) : ℚ :=
  if 0 < a.quantity ∧ 0 < a.cost_basis then
    match a.price_data with
    | some d =>
      let g := a.quantity * d.price - a.quantity * a.cost_basis
      if !containsTW a.symbol then g * usd_twd else g
    | none => 0
  else 0

/-- The gain percentage the sorter compares under `SortColumn::GainPercent`
(main.rs lines 738–742). -/
def gainPctValue (a : Stock) : ℚ :=
  if 0 < a.quantity ∧ 0 < a.cost_basis then
    match a.price_data with
    | some d => (d.price - a.cost_basis) / a.cost_basis * 100
    | none => 0
  else 0

/-- The column comparison of the `sorter` closure (main.rs lines 705–751),
before the direction is applied.  Under `Change`, a missing quote takes the
role of `f64::NEG_INFINITY`: it is below every present value and ties with
another missing quote. -/
def columnCmp (sort_col : Option SortColumn) (usd_twd : ℚ) (a b : Stock) : Ordering :=
  match sort_col with
  | some .price =>
    cmpQ ((a.price_data.map fun d => d.price).getD 0) ((b.price_data.map fun d => d.price).getD 0)
  | some .change =>
    match a.price_data, b.price_data with
    | some da, some db => cmpQ da.change_percent db.change_percent
    | some _, none => .gt
    | none, some _ => .lt
    | none, none => .eq
  | some .quantity => cmpQ a.quantity b.quantity
  | some .gain => cmpQ (gainValue usd_twd a) (gainValue usd_twd b)
  | some .gainPercent => cmpQ (gainPctValue a) (gainPctValue b)
  | none => .eq

/-- The full `sorter` closure (main.rs lines 705–757): the column comparison,
reversed when the direction is `Descending`. -/
def sorterCmp (sort_col : Option SortColumn) (sort_dir : SortDirection) (usd_twd : ℚ)
    (a b : Stock) : Ordering :=
  match sort_dir with
  | .ascending => columnCmp sort_col usd_twd a b
  | .descending => (columnCmp sort_col usd_twd a b).swap

/-- The non-strict order used by the stable sort: `a` may stay before `b`. -/
def sorterLe (sort_col : Option SortColumn) (sort_dir : SortDirection) (usd_twd : ℚ)
    (a b : Stock) : Bool :=
  sorterCmp sort_col sort_dir usd_twd a b != Ordering.gt

/-- Stable insertion into an already-sorted list. -/
def insertStock (le : Stock → Stock → Bool) (x : Stock) : List Stock → List Stock
  | [] => [x]
  | y :: ys => if le x y then x :: y :: ys else y :: insertStock le x ys

/-- Stable sort modelling `Vec::sort_by` with the comparator `le`. -/
def stableSort (le : Stock → Stock → Bool) : List Stock → List Stock
  | [] => []
  | x :: xs => insertStock le x (stableSort le xs)

/-! ## Application state and the refresh orchestrator (main.rs lines 141–170,
427–508)

Only the fields the refresh path reads or writes are modelled.  The mpsc
channel is modelled by an explicit list of `FetchMessage`s folded over the
state; `Instant::now()` at drain time is the `now : Nat` parameter. -/

/-- The refresh-relevant fields of `struct App`. -/
structure AppState where
  stocks : List Stock
  combined_stocks : List Stock
  tw_stocks : List Stock
  us_stocks : List Stock
  combined_tw_stocks : List Stock
  combined_us_stocks : List Stock
  usd_twd_rate : ℚ
  cache : List (String × PriceData × Nat)
  last_update : Nat
  is_fetching : Bool
  view_combined : Bool
  sort_column : Option SortColumn
  sort_direction : SortDirection
deriving DecidableEq

/-- `sort_stocks` (main.rs lines 700–763): re-sort the four per-market lists
with the same column, direction and exchange rate. -/
def sort_stocks (s : AppState) : AppState :=
  let le := sorterLe s.sort_column s.sort_direction s.usd_twd_rate
  { s with tw_stocks := stableSort le s.tw_stocks,
           us_stocks := stableSort le s.us_stocks,
           combined_tw_stocks := stableSort le s.combined_tw_stocks,
           combined_us_stocks := stableSort le s.combined_us_stocks }

/-- `start_async_refresh` (main.rs lines 429–463): a no-op returning no batch
while a fetch is in flight; otherwise set `is_fetching` and hand the snapshot
of the active view's symbols to the background thread. -/
def start_async_refresh (s : AppState) : AppState × Option (List String) :=
  if s.is_fetching then (s, none)
  else
    ({ s with is_fetching := true },
     some (if s.view_combined then s.combined_stocks.map fun st => st.symbol
           else s.stocks.map fun st => st.symbol))

/-- `HashMap::insert` on the in-process cache, modelled on the association
list: replace the entry for the symbol or append a new one. -/
def cacheInsert : List (String × PriceData × Nat) → String → PriceData → Nat →
    List (String × PriceData × Nat)
  | [], sym, d, t => [(sym, d, t)]
  | (k, v) :: rest, sym, d, t =>
    if k = sym then (sym, d, t) :: rest else (k, v) :: cacheInsert rest sym d t

/-- `HashMap::get` on the in-process cache. -/
def cacheLookup : List (String × PriceData × Nat) → String → Option (PriceData × Nat)
  | [], _ => none
  | (k, v) :: rest, sym => if k = sym then some v else cacheLookup rest sym

/-- The per-stock update of the six denormalized lists (main.rs lines
480–490): set the new quote on every copy with the matching symbol. -/
def patch1 (sym : String) (d : PriceData) (st : Stock) : Stock :=
  if st.symbol = sym then { st with price_data := some d } else st

/-- Handling of one drained message in `process_fetch_results` (main.rs lines
471–505): a successful per-symbol result re-stamps the cache and patches all
six lists; a failed one changes nothing; the exchange-rate result sets the
shared scalar; the completion signal flips `is_fetching` back, stamps
`last_update` and re-sorts. -/
def applyMsg (now : Nat) (s : AppState) : FetchMessage → AppState
  | .price sym opd =>
    match opd with
    | some d =>
      { s with cache := cacheInsert s.cache sym d now,
               stocks := s.stocks.map (patch1 sym d),
               tw_stocks := s.tw_stocks.map (patch1 sym d),
               us_stocks := s.us_stocks.map (patch1 sym d),
               combined_stocks := s.combined_stocks.map (patch1 sym d),
               combined_tw_stocks := s.combined_tw_stocks.map (patch1 sym d),
               combined_us_stocks := s.combined_us_stocks.map (patch1 sym d) }
    | none => s
  | .exchangeRate rate => { s with usd_twd_rate := rate }
  | .batchComplete =>
    sort_stocks { s with is_fetching := false, last_update := now }

/-- The drain loop of `process_fetch_results`: apply the pending messages in
arrival order. -/
def applyAll (now : Nat) (s : AppState) (msgs : List FetchMessage) : AppState :=
  msgs.foldl (applyMsg now) s

/-- A small state used by concrete witnesses and counterexamples: two
un-priced holdings A and B in the US list, default sort (change %,
descending), a batch in flight. -/
def exampleState : AppState :=
  { stocks := [mkHolding "A" 0 0, mkHolding "B" 0 0],
    combined_stocks := [],
    tw_stocks := [],
    us_stocks := [mkHolding "A" 0 0, mkHolding "B" 0 0],
    combined_tw_stocks := [],
    combined_us_stocks := [],
    usd_twd_rate := 32,
    cache := [],
    last_update := 0,
    is_fetching := true,
    view_combined := false,
    sort_column := some .change,
    sort_direction := .descending }

/-- The message batch used by concrete witnesses and counterexamples. -/
def exampleMsgs : List FetchMessage :=
  [.exchangeRate 30,
   .price "A" (some { price := 1, change := 1, change_percent := 1 }),
   .price "B" (some { price := 2, change := 2, change_percent := 2 }),
   .batchComplete]

/-! ## Lemmas about the aggregation fold -/

/-- Aggregating a stock leaves every other symbol's entry untouched. -/
theorem lookupA_aggStep_ne (m : AggMap) (s : Stock) (sym : String) (h : s.symbol ≠ sym) :
    lookupA (aggStep m s) sym = lookupA m sym := by
  induction m with
  | nil => simp [aggStep, lookupA, h]
  | cons p rest ih =>
    obtain ⟨k, v⟩ := p
    by_cases hk : k = s.symbol
    · subst hk
      simp [aggStep, lookupA, h]
    · by_cases hsym : k = sym
      · subst hsym
        simp [aggStep, lookupA, hk]
      · simp [aggStep, lookupA, hk, hsym, ih]

/-- Aggregating a stock merges it into its symbol's entry, or inserts it. -/
theorem lookupA_aggStep_eq (m : AggMap) (s : Stock) :
    lookupA (aggStep m s) s.symbol =
      some (match lookupA m s.symbol with
            | some old => mergeStock old s
            | none => s) := by
  induction m with
  | nil => simp [aggStep, lookupA]
  | cons p rest ih =>
    obtain ⟨k, v⟩ := p
    by_cases hk : k = s.symbol
    · subst hk
      simp [aggStep, lookupA]
    · simp [aggStep, lookupA, hk, ih]

/-- Effect of one aggregation step on the recorded quantity. -/
theorem qtyOf_aggStep (m : AggMap) (s : Stock) (sym : String) :
    qtyOf (aggStep m s) sym = qtyOf m sym + (if s.symbol = sym then s.quantity else 0) := by
  by_cases h : s.symbol = sym
  · subst h
    unfold qtyOf
    rw [lookupA_aggStep_eq]
    cases hL : lookupA m s.symbol with
    | none => simp
    | some old => simp [mergeStock]
  · unfold qtyOf
    rw [lookupA_aggStep_ne m s sym h]
    simp [h]

/-- All quantities recorded in the accumulator are non-negative. -/
def NonnegA (m : AggMap) : Prop := ∀ sym, 0 ≤ qtyOf m sym

theorem nonnegA_nil : NonnegA [] := by
  intro sym
  simp [qtyOf, lookupA]

theorem nonnegA_aggStep {m : AggMap} {s : Stock} (hs : 0 ≤ s.quantity) (hm : NonnegA m) :
    NonnegA (aggStep m s) := by
  intro sym
  rw [qtyOf_aggStep]
  have := hm sym
  split <;> linarith

/-- Effect of one aggregation step on the recorded quantity·cost product:
with non-negative quantities nothing is ever lost, including at the
`combined_qty = 0` branch that resets the stored cost basis. -/
theorem prodOf_aggStep (m : AggMap) (s : Stock) (sym : String)
    (hs : 0 ≤ s.quantity) (hm : NonnegA m) :
    prodOf (aggStep m s) sym =
      prodOf m sym + (if s.symbol = sym then s.quantity * s.cost_basis else 0) := by
  by_cases h : s.symbol = sym
  · subst h
    unfold prodOf
    rw [lookupA_aggStep_eq]
    cases hL : lookupA m s.symbol with
    | none => simp
    | some old =>
      have hold : 0 ≤ old.quantity := by
        have := hm s.symbol
        rw [qtyOf, hL] at this
        exact this
      simp only [mergeStock]
      by_cases hpos : 0 < old.quantity + s.quantity
      · simp only [if_pos hpos]
        field_simp
      · have h0 : old.quantity + s.quantity = 0 := le_antisymm (not_lt.mp hpos) (by linarith)
        have ho : old.quantity = 0 := by linarith
        have hq : s.quantity = 0 := by linarith
        simp [if_neg hpos, h0, ho, hq]
  · unfold prodOf
    rw [lookupA_aggStep_ne m s sym h]
    simp [h]

theorem sumQty_nil (sym : String) : sumQty sym [] = 0 := rfl

theorem sumQty_cons (sym : String) (h : Stock) (t : List Stock) :
    sumQty sym (h :: t) = (if h.symbol = sym then h.quantity else 0) + sumQty sym t := by
  simp only [sumQty, List.filter_cons]
  split <;> simp_all

theorem sumProd_nil (sym : String) : sumProd sym [] = 0 := rfl

theorem sumProd_cons (sym : String) (h : Stock) (t : List Stock) :
    sumProd sym (h :: t) =
      (if h.symbol = sym then h.quantity * h.cost_basis else 0) + sumProd sym t := by
  simp only [sumProd, List.filter_cons]
  split <;> simp_all

/-- The aggregation fold accumulates quantities: `quantity = Σ quantity_i`. -/
theorem qtyOf_foldl (hs : List Stock) :
    ∀ (m : AggMap) (sym : String),
      qtyOf (hs.foldl aggStep m) sym = qtyOf m sym + sumQty sym hs := by
  induction hs with
  | nil => intro m sym; simp [sumQty_nil]
  | cons h t ih =>
    intro m sym
    simp only [List.foldl_cons]
    rw [ih, qtyOf_aggStep, sumQty_cons]
    ring

theorem nonnegA_foldl (hs : List Stock) :
    ∀ (m : AggMap), (∀ s ∈ hs, 0 ≤ s.quantity) → NonnegA m →
      NonnegA (hs.foldl aggStep m) := by
  induction hs with
  | nil => intro m _ hm; exact hm
  | cons h t ih =>
    intro m hq hm
    simp only [List.foldl_cons]
    exact ih _ (fun s hst => hq s (List.mem_cons_of_mem h hst))
      (nonnegA_aggStep (hq h (List.mem_cons_self h t)) hm)

/-- The aggregation fold accumulates quantity·cost products. -/
theorem prodOf_foldl (hs : List Stock) :
    ∀ (m : AggMap) (sym : String), (∀ s ∈ hs, 0 ≤ s.quantity) → NonnegA m →
      prodOf (hs.foldl aggStep m) sym = prodOf m sym + sumProd sym hs := by
  induction hs with
  | nil => intro m sym _ _; simp [sumProd_nil]
  | cons h t ih =>
    intro m sym hq hm
    simp only [List.foldl_cons]
    rw [ih _ _ (fun s hst => hq s (List.mem_cons_of_mem h hst))
        (nonnegA_aggStep (hq h (List.mem_cons_self h t)) hm),
      prodOf_aggStep m h sym (hq h (List.mem_cons_self h t)) hm, sumProd_cons]
    ring

/-- When the recorded quantity is non-zero the recorded cost basis is the
product divided by the quantity. -/
theorem costOf_eq_div (m : AggMap) (sym : String) (h : qtyOf m sym ≠ 0) :
    costOf m sym = prodOf m sym / qtyOf m sym := by
  cases hL : lookupA m sym with
  | none =>
    exfalso
    apply h
    simp [qtyOf, hL]
  | some st =>
    have hq : qtyOf m sym = st.quantity := by simp [qtyOf, hL]
    have hc : costOf m sym = st.cost_basis := by simp [costOf, hL]
    have hp : prodOf m sym = st.quantity * st.cost_basis := by simp [prodOf, hL]
    rw [hq] at h
    rw [hq, hc, hp, mul_comm, mul_div_assoc, div_self h, mul_one]

theorem qtyOf_lcs (hs : List Stock) (sym : String) :
    qtyOf (load_combined_stocks hs) sym = sumQty sym hs := by
  unfold load_combined_stocks
  rw [qtyOf_foldl]
  simp [qtyOf, lookupA]

theorem prodOf_lcs (hs : List Stock) (sym : String) (hq : ∀ s ∈ hs, 0 ≤ s.quantity) :
    prodOf (load_combined_stocks hs) sym = sumProd sym hs := by
  unfold load_combined_stocks
  rw [prodOf_foldl hs [] sym hq nonnegA_nil]
  simp [prodOf, lookupA]

theorem sumQty_append (sym : String) (xs ys : List Stock) :
    sumQty sym (xs ++ ys) = sumQty sym xs + sumQty sym ys := by
  simp [sumQty, List.filter_append]

theorem sumProd_append (sym : String) (xs ys : List Stock) :
    sumProd sym (xs ++ ys) = sumProd sym xs + sumProd sym ys := by
  simp [sumProd, List.filter_append]

unseal Rat.add Rat.mul Rat.inv Rat.sub in
/-- C1: for every set of portfolio files (with the spec's non-negative
quantities), aggregation gives each symbol the summed quantity, and — whenever
the total quantity is positive — the quantity-weighted cost basis
`Σ(qᵢ·cᵢ) / Σqᵢ`; in particular holdings (10, cost 100) and (30, cost 140)
combine to quantity 40 with cost basis exactly 130.  (The claim's
"cost basis 0 when the total quantity is 0" clause is corrected by
`C1_weighted_aggregation_cex`: a symbol contributed by a single zero-quantity
holding keeps that holding's cost basis.) -/
theorem C1_weighted_aggregation :
    (∀ hs : List Stock, (∀ s ∈ hs, 0 ≤ s.quantity) → ∀ sym : String,
        qtyOf (load_combined_stocks hs) sym = sumQty sym hs ∧
          (0 < sumQty sym hs →
            costOf (load_combined_stocks hs) sym = sumProd sym hs / sumQty sym hs)) ∧
      qtyOf (load_combined_stocks [mkHolding "X" 10 100, mkHolding "X" 30 140]) "X" = 40 ∧
      costOf (load_combined_stocks [mkHolding "X" 10 100, mkHolding "X" 30 140]) "X" = 130 := by
  refine ⟨fun hs hq sym => ⟨qtyOf_lcs hs sym, fun hpos => ?_⟩, by decide, by decide⟩
  rw [costOf_eq_div _ _ (by rw [qtyOf_lcs]; exact ne_of_gt hpos), qtyOf_lcs,
    prodOf_lcs hs sym hq]

unseal Rat.add Rat.mul Rat.inv Rat.sub in
/-- C1 witness: the general statement applied to the concrete two-holding
portfolio. -/
theorem C1_weighted_aggregation_witness :
    costOf (load_combined_stocks [mkHolding "X" 10 100, mkHolding "X" 30 140]) "X" =
      sumProd "X" [mkHolding "X" 10 100, mkHolding "X" 30 140] /
        sumQty "X" [mkHolding "X" 10 100, mkHolding "X" 30 140] :=
  (C1_weighted_aggregation.1 [mkHolding "X" 10 100, mkHolding "X" 30 140]
    (by decide) "X").2 (by decide)

unseal Rat.add Rat.mul Rat.inv Rat.sub in
/-- C1 counterexample: a symbol whose only holding has quantity 0 and cost
basis 7 aggregates to total quantity 0 but cost basis 7, not the claimed 0. -/
theorem C1_weighted_aggregation_cex :
    sumQty "A" [mkHolding "A" 0 7] = 0 ∧
      costOf (load_combined_stocks [mkHolding "A" 0 7]) "A" = 7 ∧
      ¬costOf (load_combined_stocks [mkHolding "A" 0 7]) "A" = 0 := by
  decide

/-- C9: folding a zero-quantity holding into the aggregation contributes 0 to
its symbol's combined quantity and — provided the symbol's other contributors
have positive total quantity — leaves the weighted cost basis exactly what the
other contributors alone produce.  (The positivity proviso is forced by
`C9_zero_qty_identity_cex`.) -/
theorem C9_zero_qty_identity :
    ∀ (hs1 hs2 : List Stock) (h : Stock),
      h.quantity = 0 →
      (∀ s ∈ hs1 ++ hs2, 0 ≤ s.quantity) →
      0 < sumQty h.symbol (hs1 ++ hs2) →
      qtyOf (load_combined_stocks (hs1 ++ h :: hs2)) h.symbol =
          qtyOf (load_combined_stocks (hs1 ++ hs2)) h.symbol ∧
        costOf (load_combined_stocks (hs1 ++ h :: hs2)) h.symbol =
          costOf (load_combined_stocks (hs1 ++ hs2)) h.symbol := by
  intro hs1 hs2 h h0 hq hpos
  have hq' : ∀ s ∈ hs1 ++ h :: hs2, 0 ≤ s.quantity := by
    intro s hs
    rw [List.mem_append, List.mem_cons] at hs
    rcases hs with h1 | h2 | h3
    · exact hq s (List.mem_append_left _ h1)
    · rw [h2, h0]
    · exact hq s (List.mem_append_right _ h3)
  have hsq : sumQty h.symbol (hs1 ++ h :: hs2) = sumQty h.symbol (hs1 ++ hs2) := by
    rw [sumQty_append, sumQty_append, sumQty_cons, h0]
    simp
  have hsp : sumProd h.symbol (hs1 ++ h :: hs2) = sumProd h.symbol (hs1 ++ hs2) := by
    rw [sumProd_append, sumProd_append, sumProd_cons, h0]
    simp
  constructor
  · rw [qtyOf_lcs, qtyOf_lcs, hsq]
  · rw [costOf_eq_div _ _ (by rw [qtyOf_lcs, hsq]; exact ne_of_gt hpos),
      costOf_eq_div _ _ (by rw [qtyOf_lcs]; exact ne_of_gt hpos),
      qtyOf_lcs, qtyOf_lcs, prodOf_lcs _ _ hq', prodOf_lcs _ _ hq, hsq, hsp]

unseal Rat.add Rat.mul Rat.inv Rat.sub in
/-- C9 witness: inserting a zero-quantity holding of symbol A after a
positive-quantity holding of A leaves A's aggregated quantity and cost basis
unchanged. -/
theorem C9_zero_qty_identity_witness :
    qtyOf (load_combined_stocks ([mkHolding "A" 5 10] ++ mkHolding "A" 0 99 :: [])) "A" =
        qtyOf (load_combined_stocks ([mkHolding "A" 5 10] ++ [])) "A" ∧
      costOf (load_combined_stocks ([mkHolding "A" 5 10] ++ mkHolding "A" 0 99 :: [])) "A" =
        costOf (load_combined_stocks ([mkHolding "A" 5 10] ++ [])) "A" :=
  C9_zero_qty_identity [mkHolding "A" 5 10] [] (mkHolding "A" 0 99)
    (by decide) (by decide) (by decide)

unseal Rat.add Rat.mul Rat.inv Rat.sub in
/-- C9 counterexample: when the only other contributor itself has quantity 0
(cost basis 7), folding in a further zero-quantity holding resets the stored
cost basis from 7 to 0 — not an identity step. -/
theorem C9_zero_qty_identity_cex :
    (mkHolding "A" 0 3).quantity = 0 ∧
      costOf (load_combined_stocks [mkHolding "A" 0 7]) "A" = 7 ∧
      costOf (load_combined_stocks [mkHolding "A" 0 7, mkHolding "A" 0 3]) "A" = 0 := by
  decide

/-- C2: a price-cache entry written at time T is returned unchanged by a read
at T+Δ for every Δ strictly below the 60-second quote freshness window —
regardless of what the fallback tiers hold — and for every Δ at or above the
window it is treated as absent: the read behaves exactly like a read with no
entry, falling through to the disk tier and then the network.  The same fixed
window governs the disk tier, and the window is the constant
`CACHE_DURATION_SECS = 60`, never varied per request. -/
theorem C2_cache_freshness :
    (∀ (d : PriceData) (t delta : Nat) (env : FetchEnv),
        (delta < CACHE_DURATION_SECS →
          fetch_price (some (d, t)) env (t + delta) = some d) ∧
        (CACHE_DURATION_SECS ≤ delta →
          fetch_price (some (d, t)) env (t + delta) = fetch_price none env (t + delta)) ∧
        (delta < CACHE_DURATION_SECS →
          fetch_price none { fileCache := some (t, d), network := env.network }
            (t + delta) = some d) ∧
        (CACHE_DURATION_SECS ≤ delta →
          fetch_price none { fileCache := some (t, d), network := env.network }
            (t + delta) = env.network)) ∧
      CACHE_DURATION_SECS = 60 := by
  refine ⟨fun d t delta env => ⟨?_, ?_, ?_, ?_⟩, rfl⟩
  · intro h
    simp [fetch_price, Nat.add_sub_cancel_left, h]
  · intro h
    simp [fetch_price, Nat.add_sub_cancel_left, Nat.not_lt.mpr h]
  · intro h
    simp [fetch_price, fetch_price_uncached, Nat.add_sub_cancel_left, h]
  · intro h
    simp [fetch_price, fetch_price_uncached, Nat.add_sub_cancel_left, Nat.not_lt.mpr h]

/-- C2 witness: an entry written at t = 100 is returned unchanged at Δ = 30
and ignored (read equals an entry-less read) at Δ = 60. -/
theorem C2_cache_freshness_witness :
    fetch_price (some ({ price := 15, change := 5, change_percent := 50 }, 100))
        ⟨none, none⟩ (100 + 30) = some { price := 15, change := 5, change_percent := 50 } ∧
      fetch_price (some ({ price := 15, change := 5, change_percent := 50 }, 100))
        ⟨none, none⟩ (100 + 60) = fetch_price none ⟨none, none⟩ (100 + 60) :=
  ⟨(C2_cache_freshness.1 { price := 15, change := 5, change_percent := 50 }
      100 30 ⟨none, none⟩).1 (by decide),
   (C2_cache_freshness.1 { price := 15, change := 5, change_percent := 50 }
      100 60 ⟨none, none⟩).2.1 (by decide)⟩

unseal Rat.add Rat.mul Rat.inv Rat.sub in
/-- C3: the fetch returns a quote exactly when some endpoint yields a
parseable (price, previous) pair — never partial data — the quote always comes
from one of the attempted endpoints, a parsed pair (p, pv) always produces
`change = p − pv` and `change_percent = (p − pv) / pv · 100`, and a fetched
price of 15 against a previous close of 10 gives change percent exactly 50. -/
theorem C3_fetch_formula :
    (∀ rs : List (Option EndpointMeta),
        fetch_price_blocking rs = none ↔ ∀ r ∈ rs, parseEndpoint r = none) ∧
      (∀ (rs : List (Option EndpointMeta)) (d : PriceData),
        fetch_price_blocking rs = some d → ∃ r ∈ rs, parseEndpoint r = some d) ∧
      (∀ (m : EndpointMeta) (p pv : ℚ),
        endpointPrice m = some p → endpointPrev m = some pv →
          parseEndpoint (some m) =
            some { price := p, change := p - pv, change_percent := (p - pv) / pv * 100 }) ∧
      fetch_price_blocking [some ⟨some 15, some 10, none⟩] =
        some { price := 15, change := 5, change_percent := 50 } := by
  refine ⟨?_, ?_, ?_, by decide⟩
  · intro rs
    induction rs with
    | nil => simp [fetch_price_blocking]
    | cons r rest ih =>
      cases hp : parseEndpoint r with
      | some d => simp [fetch_price_blocking, hp]
      | none => simp [fetch_price_blocking, hp, ih]
  · intro rs d
    induction rs with
    | nil => simp [fetch_price_blocking]
    | cons r rest ih =>
      cases hp : parseEndpoint r with
      | some d2 =>
        intro h
        simp only [fetch_price_blocking, hp, Option.some.injEq] at h
        exact ⟨r, List.mem_cons_self r rest, by rw [hp, h]⟩
      | none =>
        intro h
        simp only [fetch_price_blocking, hp] at h
        obtain ⟨r2, hr2, hp2⟩ := ih h
        exact ⟨r2, List.mem_cons_of_mem r hr2, hp2⟩
  · intro m p pv h1 h2
    simp [parseEndpoint, h1, h2]

/-- C3 witness: the formula conjunct applied to a concrete endpoint response
with price 15 and previous close 10. -/
theorem C3_fetch_formula_witness :
    parseEndpoint (some ⟨some 15, some 10, none⟩) =
      some { price := 15, change := 15 - 10, change_percent := (15 - 10) / 10 * 100 } :=
  C3_fetch_formula.2.2.1 ⟨some 15, some 10, none⟩ 15 10 rfl rfl

/-- C10: draining a per-symbol fetch result that carries no quote is a
complete no-op on the application state: the cache entry is untouched and
every copy of the holding in all six view lists keeps its previous quote, so
a failed refresh never erases previously displayed data. -/
theorem C10_failed_fetch_frame :
    ∀ (now : Nat) (s : AppState) (sym : String),
      applyMsg now s (.price sym none) = s ∧
        (applyMsg now s (.price sym none)).cache = s.cache ∧
        (applyMsg now s (.price sym none)).stocks = s.stocks ∧
        (applyMsg now s (.price sym none)).tw_stocks = s.tw_stocks ∧
        (applyMsg now s (.price sym none)).us_stocks = s.us_stocks ∧
        (applyMsg now s (.price sym none)).combined_stocks = s.combined_stocks ∧
        (applyMsg now s (.price sym none)).combined_tw_stocks = s.combined_tw_stocks ∧
        (applyMsg now s (.price sym none)).combined_us_stocks = s.combined_us_stocks :=
  fun now s sym => ⟨rfl, rfl, rfl, rfl, rfl, rfl, rfl, rfl⟩

/-- C4: the refresh orchestrator is the two-state machine on `is_fetching`:
requesting a new batch while one is in flight changes nothing and spawns
nothing (not queued, not an error), and processing the batch-completion
message always returns the state to Idle, stamps the last-updated timestamp
with the drain time, and re-sorts all four derived orderings with the current
column, direction and exchange rate. -/
theorem C4_refresh_state_machine :
    (∀ s : AppState, s.is_fetching = true → start_async_refresh s = (s, none)) ∧
      (∀ (now : Nat) (s : AppState),
        applyMsg now s .batchComplete =
            sort_stocks { s with is_fetching := false, last_update := now } ∧
          (applyMsg now s .batchComplete).is_fetching = false ∧
          (applyMsg now s .batchComplete).last_update = now ∧
          (applyMsg now s .batchComplete).tw_stocks =
            stableSort (sorterLe s.sort_column s.sort_direction s.usd_twd_rate) s.tw_stocks ∧
          (applyMsg now s .batchComplete).us_stocks =
            stableSort (sorterLe s.sort_column s.sort_direction s.usd_twd_rate) s.us_stocks ∧
          (applyMsg now s .batchComplete).combined_tw_stocks =
            stableSort (sorterLe s.sort_column s.sort_direction s.usd_twd_rate)
              s.combined_tw_stocks ∧
          (applyMsg now s .batchComplete).combined_us_stocks =
            stableSort (sorterLe s.sort_column s.sort_direction s.usd_twd_rate)
              s.combined_us_stocks) := by
  constructor
  · intro s h
    simp [start_async_refresh, h]
  · intro now s
    exact ⟨rfl, rfl, rfl, rfl, rfl, rfl, rfl⟩

/-- C4 witness: with a batch in flight in the concrete example state, a start
request returns the state unchanged and spawns no symbol snapshot. -/
theorem C4_refresh_state_machine_witness :
    start_async_refresh exampleState = (exampleState, none) :=
  C4_refresh_state_machine.1 exampleState rfl

/-- A read error on any line aborts the whole load, whatever well-formed
lines precede it. -/
theorem loadLines_error (pre : List String) (e : String)
    (post : List (Except String String)) :
    loadLines (pre.map Except.ok ++ Except.error e :: post) = Except.error e := by
  induction pre with
  | nil => rfl
  | cons raw rest ih =>
    simp only [List.map_cons, List.cons_append, loadLines]
    have ih2 : loadLines (List.append (List.map Except.ok rest) (Except.error e :: post)) =
        Except.error e := ih
    cases parseLine raw with
    | some st =>
      rw [ih2]
      rfl
    | none =>
      rw [ih2]

/-- C7 (amended): storage failures on an *existing* holdings file propagate as
hard errors — an unreadable file fails the load, a failing line read fails the
load, and a failed file creation fails the save — while a load of a
*non-existent* path is deliberately absorbed into `Ok(empty)` rather than
raised (corrected by `C7_storage_error_cex`). -/
theorem C7_storage_error_propagation :
    (∀ (e : String) (lines : List (Except String String)),
        load_stocks_from_file ⟨true, .error e⟩ = .error e ∧
          (⟨true, .ok lines⟩ : LoadEnv).pathExists = true) ∧
      (∀ (pre : List String) (e : String) (post : List (Except String String)),
        load_stocks_from_file ⟨true, .ok (pre.map Except.ok ++ Except.error e :: post)⟩ =
          .error e) ∧
      (∀ stocks : List Stock, save_stocks false stocks = .error "create failed") ∧
      (∀ stocks : List Stock, save_stocks true stocks = .ok (save_lines stocks)) ∧
      (∀ env : LoadEnv, env.pathExists = false → load_stocks_from_file env = .ok []) := by
  refine ⟨fun e lines => ⟨rfl, rfl⟩, fun pre e post => ?_, fun stocks => rfl,
    fun stocks => rfl, fun env h => ?_⟩
  · simp only [load_stocks_from_file]
    exact loadLines_error pre e post
  · simp [load_stocks_from_file, h]

/-- C7 witness: a load whose first line read fails with "disk" propagates the
error; a load of a missing path returns the empty portfolio. -/
theorem C7_storage_error_propagation_witness :
    load_stocks_from_file ⟨true, .ok ([].map Except.ok ++ Except.error "disk" :: [])⟩ =
        .error "disk" ∧
      load_stocks_from_file ⟨false, .ok []⟩ = .ok [] :=
  ⟨C7_storage_error_propagation.2.1 [] "disk" [],
   C7_storage_error_propagation.2.2.2.2 ⟨false, .ok []⟩ rfl⟩

/-- C7 counterexample: a missing path (the file or its directory does not
exist) is *not* surfaced as a hard error: the load silently returns the empty
holding list, contradicting the claim for the missing-directory case. -/
theorem C7_storage_error_cex :
    (⟨false, .error "missing directory"⟩ : LoadEnv).pathExists = false ∧
      load_stocks_from_file ⟨false, .error "missing directory"⟩ = .ok [] :=
  ⟨rfl, rfl⟩

/-- C8: in every ranking comparison, a row with no quote compares under the
price column exactly as if it carried price 0; under the change-percent column
a missing quote acts as negative infinity (strictly below every priced row,
tied with other un-priced rows); under the gain and gain-percent columns the
compared value is 0 unless quantity and cost basis are both positive; under
the gain column the gain of every non-Taiwan symbol is multiplied by the
current exchange rate before the comparison; and descending order is exactly
the reversed ascending comparison. -/
theorem C8_ranking_comparisons :
    (∀ (rate : ℚ) (dir : SortDirection) (a b : Stock), a.price_data = none →
        sorterCmp (some .price) dir rate a b =
            sorterCmp (some .price) dir rate
              { a with price_data := some { price := 0, change := 0, change_percent := 0 } } b ∧
          sorterCmp (some .price) dir rate b a =
            sorterCmp (some .price) dir rate b
              { a with price_data := some { price := 0, change := 0, change_percent := 0 } }) ∧
      (∀ (rate : ℚ) (a b : Stock), a.price_data = none → b.price_data ≠ none →
        columnCmp (some .change) rate a b = .lt) ∧
      (∀ (rate : ℚ) (a b : Stock), a.price_data = none → b.price_data = none →
        columnCmp (some .change) rate a b = .eq) ∧
      (∀ (rate : ℚ) (a : Stock), ¬(0 < a.quantity ∧ 0 < a.cost_basis) →
        gainValue rate a = 0 ∧ gainPctValue a = 0) ∧
      (∀ (rate : ℚ) (dir : SortDirection) (a b : Stock),
        sorterCmp (some .gain) .ascending rate a b = cmpQ (gainValue rate a) (gainValue rate b) ∧
          sorterCmp (some .gainPercent) .ascending rate a b =
            cmpQ (gainPctValue a) (gainPctValue b)) ∧
      (∀ (rate : ℚ) (st : Stock) (d : PriceData), st.price_data = some d →
        0 < st.quantity → 0 < st.cost_basis →
        gainValue rate st =
          (if containsTW st.symbol then (1 : ℚ) else rate) *
            (st.quantity * d.price - st.quantity * st.cost_basis)) ∧
      (∀ (col : Option SortColumn) (rate : ℚ) (a b : Stock),
        sorterCmp col .descending rate a b = (sorterCmp col .ascending rate a b).swap) := by
  refine ⟨?_, ?_, ?_, ?_, fun rate dir a b => ⟨rfl, rfl⟩, ?_, fun col rate a b => rfl⟩
  · intro rate dir a b ha
    cases dir <;> simp [sorterCmp, columnCmp, ha]
  · intro rate a b ha hb
    cases hB : b.price_data with
    | none => exact absurd hB hb
    | some db => simp [columnCmp, ha, hB]
  · intro rate a b ha hb
    simp [columnCmp, ha, hb]
  · intro rate a h
    simp [gainValue, gainPctValue, h]
  · intro rate st d hd hq hc
    simp only [gainValue, if_pos (And.intro hq hc), hd]
    cases hTW : containsTW st.symbol <;> simp [hTW] <;> ring

unseal Rat.add Rat.mul Rat.inv Rat.sub in
/-- C8 witness: concrete checks — an un-priced row equals a price-0 row under
the price column, sinks below a priced row under change-percent, and a priced
US holding's gain is scaled by the exchange rate. -/
theorem C8_ranking_comparisons_witness :
    columnCmp (some .change) 32 (mkHolding "A" 1 1)
        (patch1 "B" { price := 2, change := 2, change_percent := 2 } (mkHolding "B" 1 1)) =
        .lt ∧
      gainValue 30 (patch1 "U" { price := 7, change := 1, change_percent := 1 }
          (mkHolding "U" 2 5)) =
        (if containsTW "U" then (1 : ℚ) else 30) * (2 * 7 - 2 * 5) :=
  ⟨C8_ranking_comparisons.2.1 32 (mkHolding "A" 1 1)
      (patch1 "B" { price := 2, change := 2, change_percent := 2 } (mkHolding "B" 1 1))
      rfl (by decide),
    C8_ranking_comparisons.2.2.2.2.2.1 30
      (patch1 "U" { price := 7, change := 1, change_percent := 1 } (mkHolding "U" 2 5))
      { price := 7, change := 1, change_percent := 1 } rfl (by decide) (by decide)⟩

/-- C6 (amended): one single classification rule — a *substring* match on
`".TW"`, not a strict suffix match (corrected by
`C6_market_classification_cex`) — assigns every symbol to exactly one of the
two market segments, and that same rule is used at every classification site:
the per-market split of loaded holdings, the market grouping written by the
portfolio saver, and the decision whether cost/value/gain amounts are
converted by the exchange rate. -/
theorem C6_market_classification :
    (∀ (stocks : List Stock) (st : Stock), st ∈ stocks →
        (st ∈ refresh_tw_split stocks ↔ containsTW st.symbol = true) ∧
          (st ∈ refresh_us_split stocks ↔ containsTW st.symbol = false) ∧
          ¬(st ∈ refresh_tw_split stocks ∧ st ∈ refresh_us_split stocks)) ∧
      (∀ stocks : List Stock,
        save_tw_group stocks = refresh_tw_split stocks ∧
          save_us_group stocks = refresh_us_split stocks) ∧
      (∀ (rate : ℚ) (st : Stock) (d : PriceData), st.price_data = some d →
        0 < st.quantity → 0 < st.cost_basis →
        gainValue rate st =
          (if containsTW st.symbol then (1 : ℚ) else rate) *
            (st.quantity * d.price - st.quantity * st.cost_basis)) ∧
      (∀ (rate : ℚ) (acc : ℚ × ℚ × Nat) (st : Stock) (d : PriceData),
        st.price_data = some d → 0 < st.quantity →
        summaryStep rate acc st =
          if containsTW st.symbol then
            (acc.1 + st.quantity * st.cost_basis, acc.2.1 + st.quantity * d.price, acc.2.2 + 1)
          else
            (acc.1 + st.quantity * st.cost_basis * rate,
              acc.2.1 + st.quantity * d.price * rate, acc.2.2 + 1)) := by
  refine ⟨?_, fun stocks => ⟨rfl, rfl⟩, ?_, ?_⟩
  · intro stocks st hmem
    refine ⟨?_, ?_, ?_⟩
    · simp [refresh_tw_split, List.mem_filter, hmem]
    · simp [refresh_us_split, List.mem_filter, hmem]
    · rintro ⟨h1, h2⟩
      rw [refresh_tw_split, List.mem_filter] at h1
      rw [refresh_us_split, List.mem_filter] at h2
      rw [h1.2] at h2
      simp at h2
  · intro rate st d hd hq hc
    simp only [gainValue, if_pos (And.intro hq hc), hd]
    cases hTW : containsTW st.symbol <;> simp [hTW] <;> ring
  · intro rate acc st d hd hq
    simp only [summaryStep, if_pos hq, hd]
    cases hTW : containsTW st.symbol <;> simp [hTW]

unseal Rat.add Rat.mul Rat.inv Rat.sub in
/-- C6 witness: the partition and split agreement applied to a concrete
two-symbol portfolio, and the conversion decision applied to a priced Taiwan
holding (conversion factor 1). -/
theorem C6_market_classification_witness :
    (mkHolding "2330.TW" 1 1 ∈
        refresh_tw_split [mkHolding "2330.TW" 1 1, mkHolding "AAPL" 1 1] ↔
      containsTW "2330.TW" = true) ∧
      gainValue 30 (patch1 "2330.TW" { price := 9, change := 1, change_percent := 1 }
          (mkHolding "2330.TW" 2 5)) =
        (if containsTW "2330.TW" then (1 : ℚ) else 30) * (2 * 9 - 2 * 5) :=
  ⟨(C6_market_classification.1 [mkHolding "2330.TW" 1 1, mkHolding "AAPL" 1 1]
      (mkHolding "2330.TW" 1 1) (by decide)).1,
    C6_market_classification.2.2.1 30
      (patch1 "2330.TW" { price := 9, change := 1, change_percent := 1 }
        (mkHolding "2330.TW" 2 5))
      { price := 9, change := 1, change_percent := 1 } rfl (by decide) (by decide)⟩

/-- C6 counterexample: the rule the code applies is substring containment,
not a suffix match — the symbol `6488.TWO` (which does not end in `.TW`) is
classified as Taiwan-market. -/
theorem C6_market_classification_cex :
    containsTW "6488.TWO" = true ∧ endsWithTW "6488.TWO" = false := by
  decide

/-! ## Lemmas for batch-message reordering (C5)

The per-symbol updates a message batch performs are summarised by the list of
`(symbol, Option quote)` pairs it carries; `patchFun` is the combined effect
of all per-symbol patches on one stock when those symbols are distinct. -/

/-- The per-symbol results carried by a message list, in order. -/
def pricesOf : List FetchMessage → List (String × Option PriceData)
  | [] => []
  | .price sym opd :: ms => (sym, opd) :: pricesOf ms
  | .exchangeRate _ :: ms => pricesOf ms
  | .batchComplete :: ms => pricesOf ms

/-- First-match lookup of a symbol's carried result. -/
def lookupPrice : List (String × Option PriceData) → String → Option (Option PriceData)
  | [], _ => none
  | (k, v) :: rest, sym => if k = sym then some v else lookupPrice rest sym

/-- The combined effect of a batch's per-symbol patches on one stock. -/
def patchFun (ps : List (String × Option PriceData)) (st : Stock) : Stock :=
  match lookupPrice ps st.symbol with
  | some (some d) => { st with price_data := some d }
  | _ => st

theorem lookupPrice_not_mem (ps : List (String × Option PriceData)) (sym : String)
    (h : sym ∉ ps.map Prod.fst) : lookupPrice ps sym = none := by
  induction ps with
  | nil => rfl
  | cons p rest ih =>
    obtain ⟨k, v⟩ := p
    simp only [List.map_cons, List.mem_cons] at h
    push_neg at h
    simp only [lookupPrice, if_neg (fun hk : k = sym => h.1 hk.symm)]
    exact ih h.2

theorem lookupPrice_append (xs ys : List (String × Option PriceData)) (sym : String) :
    lookupPrice (xs ++ ys) sym =
      match lookupPrice xs sym with
      | some v => some v
      | none => lookupPrice ys sym := by
  induction xs with
  | nil => rfl
  | cons p rest ih =>
    obtain ⟨k, v⟩ := p
    by_cases hk : k = sym
    · simp [lookupPrice, hk]
    · simp [lookupPrice, hk, ih]

theorem lookupPrice_reverse (ps : List (String × Option PriceData)) (sym : String)
    (h : (ps.map Prod.fst).Nodup) : lookupPrice ps.reverse sym = lookupPrice ps sym := by
  induction ps with
  | nil => rfl
  | cons p rest ih =>
    obtain ⟨k, v⟩ := p
    simp only [List.map_cons, List.nodup_cons] at h
    rw [List.reverse_cons, lookupPrice_append, ih h.2]
    by_cases hk : k = sym
    · subst hk
      rw [lookupPrice_not_mem rest k h.1]
      simp [lookupPrice]
    · cases hrest : lookupPrice rest sym with
      | some v2 => simp [lookupPrice, hk, hrest]
      | none => simp [lookupPrice, hk, hrest]

theorem patchFun_ext (ps qs : List (String × Option PriceData))
    (h : ∀ sym, lookupPrice ps sym = lookupPrice qs sym) : patchFun ps = patchFun qs := by
  funext st
  unfold patchFun
  rw [h st.symbol]

theorem patchFun_reverse (ps : List (String × Option PriceData))
    (h : (ps.map Prod.fst).Nodup) : patchFun ps.reverse = patchFun ps :=
  patchFun_ext _ _ fun sym => lookupPrice_reverse ps sym h

/-- Prepending a successful per-symbol result composes with the remaining
patches when the symbol does not recur. -/
theorem patchFun_cons_some (sym : String) (d : PriceData)
    (ps : List (String × Option PriceData)) (h : sym ∉ ps.map Prod.fst) :
    patchFun ((sym, some d) :: ps) = fun st => patchFun ps (patch1 sym d st) := by
  funext st
  by_cases hs : st.symbol = sym
  · simp only [patchFun, patch1, lookupPrice, if_pos hs.symm, if_pos hs]
    have : lookupPrice ps sym = none := lookupPrice_not_mem ps sym h
    simp [hs, this]
  · simp only [patchFun, patch1, lookupPrice, if_neg (fun hk : sym = st.symbol => hs hk.symm),
      if_neg hs]

/-- Prepending a failed per-symbol result adds no patch. -/
theorem patchFun_cons_none (sym : String)
    (ps : List (String × Option PriceData)) (h : sym ∉ ps.map Prod.fst) :
    patchFun ((sym, none) :: ps) = patchFun ps := by
  funext st
  by_cases hs : st.symbol = sym
  · have hnone : lookupPrice ps sym = none := lookupPrice_not_mem ps sym h
    simp [patchFun, lookupPrice, hs, hnone]
  · simp [patchFun, lookupPrice, if_neg (fun hk : sym = st.symbol => hs hk.symm)]

theorem insertStock_perm (le : Stock → Stock → Bool) (x : Stock) (l : List Stock) :
    List.Perm (insertStock le x l) (x :: l) := by
  induction l with
  | nil => exact List.Perm.refl _
  | cons y ys ih =>
    rw [insertStock]
    cases h : le x y
    · rw [if_neg (by simp [h])]
      exact (ih.cons y).trans (List.Perm.swap x y ys)
    · rw [if_pos (by simp [h])]

/-- The stable sort modelling `Vec::sort_by` permutes its input. -/
theorem stableSort_perm (le : Stock → Stock → Bool) (l : List Stock) :
    List.Perm (stableSort le l) l := by
  induction l with
  | nil => exact List.Perm.refl _
  | cons x xs ih =>
    rw [stableSort]
    exact (insertStock_perm le x (stableSort le xs)).trans (ih.cons x)

theorem applyAll_cons (now : Nat) (s : AppState) (m : FetchMessage) (ms : List FetchMessage) :
    applyAll now s (m :: ms) = applyAll now (applyMsg now s m) ms := rfl

theorem applyAll_append (now : Nat) (s : AppState) (xs ys : List FetchMessage) :
    applyAll now s (xs ++ ys) = applyAll now (applyAll now s xs) ys := by
  simp [applyAll]

/-- Messages other than the exchange-rate result never touch the shared rate. -/
theorem rate_pres (now : Nat) :
    ∀ (ms : List FetchMessage) (s : AppState),
      (∀ r : ℚ, FetchMessage.exchangeRate r ∉ ms) →
      (applyAll now s ms).usd_twd_rate = s.usd_twd_rate := by
  intro ms
  induction ms with
  | nil => intro s _; rfl
  | cons m rest ih =>
    intro s h
    have h1 : ∀ r : ℚ, FetchMessage.exchangeRate r ∉ rest :=
      fun r hr => h r (List.mem_cons_of_mem m hr)
    have h2 : (applyMsg now s m).usd_twd_rate = s.usd_twd_rate := by
      cases m with
      | price sym opd => cases opd <;> rfl
      | exchangeRate r => exact absurd (List.mem_cons_self _ _) (h r)
      | batchComplete => rfl
    rw [applyAll_cons, ih _ h1, h2]

/-- Messages other than the completion signal never touch `is_fetching` or
`last_update`. -/
theorem fetching_pres (now : Nat) :
    ∀ (ms : List FetchMessage) (s : AppState),
      FetchMessage.batchComplete ∉ ms →
      (applyAll now s ms).is_fetching = s.is_fetching ∧
        (applyAll now s ms).last_update = s.last_update := by
  intro ms
  induction ms with
  | nil => intro s _; exact ⟨rfl, rfl⟩
  | cons m rest ih =>
    intro s h
    have h1 : FetchMessage.batchComplete ∉ rest := fun hr => h (List.mem_cons_of_mem m hr)
    have h2 : (applyMsg now s m).is_fetching = s.is_fetching ∧
        (applyMsg now s m).last_update = s.last_update := by
      cases m with
      | price sym opd => cases opd <;> exact ⟨rfl, rfl⟩
      | exchangeRate r => exact ⟨rfl, rfl⟩
      | batchComplete => exact absurd (List.mem_cons_self _ _) h
    rw [applyAll_cons]
    obtain ⟨ha, hb⟩ := ih _ h1
    rw [ha, hb, h2.1, h2.2]
    exact ⟨rfl, rfl⟩

theorem cacheLookup_insert (c : List (String × PriceData × Nat)) (sym2 : String)
    (d : PriceData) (t : Nat) (sym : String) :
    cacheLookup (cacheInsert c sym2 d t) sym =
      if sym = sym2 then some (d, t) else cacheLookup c sym := by
  induction c with
  | nil =>
    by_cases h : sym = sym2
    · subst h
      simp [cacheInsert, cacheLookup]
    · simp [cacheInsert, cacheLookup, h, Ne.symm h]
  | cons p rest ih =>
    obtain ⟨k, v⟩ := p
    by_cases hk : k = sym2
    · subst hk
      by_cases hs : sym = k
      · subst hs
        simp [cacheInsert, cacheLookup]
      · simp [cacheInsert, cacheLookup, hs, Ne.symm hs]
    · by_cases hs : sym = k
      · subst hs
        simp [cacheInsert, cacheLookup, hk]
      · simp [cacheInsert, cacheLookup, hk, hs, Ne.symm hs, ih]

theorem mem_of_lookupPrice (ps : List (String × Option PriceData)) (sym : String)
    (o : Option PriceData) (h : lookupPrice ps sym = some o) : sym ∈ ps.map Prod.fst := by
  by_contra hmem
  rw [lookupPrice_not_mem ps sym hmem] at h
  exact Option.noConfusion h

theorem patchFun_nil : patchFun [] = fun st => st := by
  funext st
  rfl

theorem map_patchFun_cons_some (sym : String) (d : PriceData)
    (ps : List (String × Option PriceData)) (h : sym ∉ ps.map Prod.fst) (l : List Stock) :
    l.map (patchFun ((sym, some d) :: ps)) = (l.map (patch1 sym d)).map (patchFun ps) := by
  rw [patchFun_cons_some _ _ _ h, List.map_map]
  rfl

/-- The cache after draining messages: each distinct successfully fetched
symbol maps to its new quote stamped at drain time; every other symbol keeps
its previous entry. -/
theorem cache_applyAll (now : Nat) :
    ∀ (ms : List FetchMessage) (s : AppState) (sym : String),
      ((pricesOf ms).map Prod.fst).Nodup →
      cacheLookup (applyAll now s ms).cache sym =
        (match lookupPrice (pricesOf ms) sym with
         | some (some d) => some (d, now)
         | some none => cacheLookup s.cache sym
         | none => cacheLookup s.cache sym) := by
  intro ms
  induction ms with
  | nil => intro s sym _; rfl
  | cons m rest ih =>
    intro s sym hnd
    cases m with
    | price sym2 opd =>
      rw [pricesOf] at hnd
      simp only [List.map_cons, List.nodup_cons] at hnd
      obtain ⟨hnotin, hnd'⟩ := hnd
      cases opd with
      | some d =>
        rw [applyAll_cons, ih _ sym hnd']
        cases hlp : lookupPrice (pricesOf rest) sym with
        | some o =>
          have hmem := mem_of_lookupPrice _ _ _ hlp
          have hs2 : ¬sym2 = sym := fun hh => hnotin (hh ▸ hmem)
          have hs3 : ¬sym = sym2 := fun hh => hs2 hh.symm
          cases o with
          | some d2 => simp [pricesOf, lookupPrice, hs2, hlp]
          | none =>
            simp [pricesOf, lookupPrice, hs2, hs3, hlp, applyMsg, cacheLookup_insert]
        | none =>
          by_cases hs : sym = sym2
          · subst hs
            simp [pricesOf, lookupPrice, hlp, applyMsg, cacheLookup_insert]
          · have hs4 : ¬sym2 = sym := fun hh => hs hh.symm
            simp [pricesOf, lookupPrice, hlp, applyMsg, cacheLookup_insert, hs, hs4]
      | none =>
        rw [applyAll_cons, ih _ sym hnd']
        by_cases hs : sym = sym2
        · subst hs
          simp [pricesOf, lookupPrice, lookupPrice_not_mem _ _ hnotin, applyMsg]
        · have hs4 : ¬sym2 = sym := fun hh => hs hh.symm
          simp [pricesOf, lookupPrice, applyMsg, hs4]
    | exchangeRate r =>
      rw [applyAll_cons, ih _ sym (by rw [pricesOf] at hnd; exact hnd)]
      rfl
    | batchComplete =>
      rw [applyAll_cons, ih _ sym (by rw [pricesOf] at hnd; exact hnd)]
      rfl

/-- The two view lists that are never re-sorted end up exactly patched. -/
theorem stocks_applyAll (now : Nat) :
    ∀ (ms : List FetchMessage) (s : AppState),
      ((pricesOf ms).map Prod.fst).Nodup →
      (applyAll now s ms).stocks = s.stocks.map (patchFun (pricesOf ms)) ∧
        (applyAll now s ms).combined_stocks = s.combined_stocks.map (patchFun (pricesOf ms)) := by
  intro ms
  induction ms with
  | nil =>
    intro s _
    simp only [pricesOf]
    rw [patchFun_nil]
    simp [applyAll]
  | cons m rest ih =>
    intro s hnd
    cases m with
    | price sym2 opd =>
      rw [pricesOf] at hnd
      simp only [List.map_cons, List.nodup_cons] at hnd
      obtain ⟨hnotin, hnd'⟩ := hnd
      cases opd with
      | some d =>
        rw [applyAll_cons]
        obtain ⟨h1, h2⟩ := ih (applyMsg now s (.price sym2 (some d))) hnd'
        constructor
        · rw [h1, pricesOf, map_patchFun_cons_some _ _ _ hnotin]
          rfl
        · rw [h2, pricesOf, map_patchFun_cons_some _ _ _ hnotin]
          rfl
      | none =>
        rw [applyAll_cons]
        obtain ⟨h1, h2⟩ := ih (applyMsg now s (.price sym2 none)) hnd'
        constructor
        · rw [h1, pricesOf, patchFun_cons_none _ _ hnotin]
          rfl
        · rw [h2, pricesOf, patchFun_cons_none _ _ hnotin]
          rfl
    | exchangeRate r =>
      rw [pricesOf] at hnd ⊢
      rw [applyAll_cons]
      exact ih (applyMsg now s (.exchangeRate r)) hnd
    | batchComplete =>
      rw [pricesOf] at hnd ⊢
      rw [applyAll_cons]
      exact ih (applyMsg now s .batchComplete) hnd

/-- The four re-sortable view lists end up as permutations of the patched
originals, whatever interleaving of patches and re-sorts occurred. -/
theorem perm_applyAll (now : Nat) :
    ∀ (ms : List FetchMessage) (s : AppState),
      ((pricesOf ms).map Prod.fst).Nodup →
      List.Perm (applyAll now s ms).tw_stocks (s.tw_stocks.map (patchFun (pricesOf ms))) ∧
        List.Perm (applyAll now s ms).us_stocks (s.us_stocks.map (patchFun (pricesOf ms))) ∧
        List.Perm (applyAll now s ms).combined_tw_stocks
          (s.combined_tw_stocks.map (patchFun (pricesOf ms))) ∧
        List.Perm (applyAll now s ms).combined_us_stocks
          (s.combined_us_stocks.map (patchFun (pricesOf ms))) := by
  intro ms
  induction ms with
  | nil =>
    intro s _
    simp only [pricesOf]
    rw [patchFun_nil]
    simp only [applyAll, List.foldl_nil, List.map_id']
    exact ⟨List.Perm.refl _, List.Perm.refl _, List.Perm.refl _, List.Perm.refl _⟩
  | cons m rest ih =>
    intro s hnd
    cases m with
    | price sym2 opd =>
      rw [pricesOf] at hnd
      simp only [List.map_cons, List.nodup_cons] at hnd
      obtain ⟨hnotin, hnd'⟩ := hnd
      cases opd with
      | some d =>
        rw [applyAll_cons]
        obtain ⟨p1, p2, p3, p4⟩ := ih (applyMsg now s (.price sym2 (some d))) hnd'
        refine ⟨?_, ?_, ?_, ?_⟩
        · rw [pricesOf, map_patchFun_cons_some _ _ _ hnotin]
          exact p1
        · rw [pricesOf, map_patchFun_cons_some _ _ _ hnotin]
          exact p2
        · rw [pricesOf, map_patchFun_cons_some _ _ _ hnotin]
          exact p3
        · rw [pricesOf, map_patchFun_cons_some _ _ _ hnotin]
          exact p4
      | none =>
        rw [applyAll_cons]
        obtain ⟨p1, p2, p3, p4⟩ := ih (applyMsg now s (.price sym2 none)) hnd'
        refine ⟨?_, ?_, ?_, ?_⟩
        · rw [pricesOf, patchFun_cons_none _ _ hnotin]
          exact p1
        · rw [pricesOf, patchFun_cons_none _ _ hnotin]
          exact p2
        · rw [pricesOf, patchFun_cons_none _ _ hnotin]
          exact p3
        · rw [pricesOf, patchFun_cons_none _ _ hnotin]
          exact p4
    | exchangeRate r =>
      rw [pricesOf] at hnd ⊢
      rw [applyAll_cons]
      exact ih (applyMsg now s (.exchangeRate r)) hnd
    | batchComplete =>
      rw [pricesOf] at hnd ⊢
      rw [applyAll_cons]
      obtain ⟨p1, p2, p3, p4⟩ := ih (applyMsg now s .batchComplete) hnd
      have le0 := sorterLe s.sort_column s.sort_direction s.usd_twd_rate
      refine ⟨p1.trans (List.Perm.map _ (stableSort_perm _ _)),
        p2.trans (List.Perm.map _ (stableSort_perm _ _)),
        p3.trans (List.Perm.map _ (stableSort_perm _ _)),
        p4.trans (List.Perm.map _ (stableSort_perm _ _))⟩

theorem pricesOf_append (xs ys : List FetchMessage) :
    pricesOf (xs ++ ys) = pricesOf xs ++ pricesOf ys := by
  induction xs with
  | nil => rfl
  | cons m rest ih =>
    cases m with
    | price sym opd => simp [pricesOf, ih]
    | exchangeRate r => simp [pricesOf, ih]
    | batchComplete => simp [pricesOf, ih]

theorem pricesOf_map (prices : List (String × Option PriceData)) :
    pricesOf (prices.map fun p => FetchMessage.price p.1 p.2) = prices := by
  induction prices with
  | nil => rfl
  | cons p rest ih => simp [pricesOf, ih]

theorem applyAll_snoc (now : Nat) (x : AppState) (ys : List FetchMessage) (m : FetchMessage) :
    applyAll now x (ys ++ [m]) = applyMsg now (applyAll now x ys) m := by
  rw [applyAll_append]
  rfl

/-- C5 (amended): applying a fetch batch's messages — distinct-symbol price
results, one exchange-rate result and the completion signal — in reverse order
reaches the same cache contents, the same exchange rate, the same
fetching-flag and last-updated stamp, the identical two un-sorted holding
lists, and the same rows (as multisets, each copy holding the same quote) in
all four sorted view lists.  The *internal order* of the sorted lists can
differ, because the completion signal re-sorts with whatever data has already
been applied when it is drained (counterexample
`C5_batch_reverse_order_cex`); the claim's "same final state" is corrected to
this orderings-up-to-permutation statement. -/
theorem C5_batch_reverse_order (prices : List (String × Option PriceData)) (r : ℚ)
    (now : Nat) (s : AppState) (msgs : List FetchMessage)
    (hmsgs : msgs = (FetchMessage.exchangeRate r ::
      prices.map fun p => FetchMessage.price p.1 p.2) ++ [FetchMessage.batchComplete])
    (hnd : (prices.map Prod.fst).Nodup) :
    (applyAll now s msgs).usd_twd_rate = (applyAll now s msgs.reverse).usd_twd_rate ∧
      (applyAll now s msgs).is_fetching = (applyAll now s msgs.reverse).is_fetching ∧
      (applyAll now s msgs).last_update = (applyAll now s msgs.reverse).last_update ∧
      (∀ sym, cacheLookup (applyAll now s msgs).cache sym =
        cacheLookup (applyAll now s msgs.reverse).cache sym) ∧
      (applyAll now s msgs).stocks = (applyAll now s msgs.reverse).stocks ∧
      (applyAll now s msgs).combined_stocks = (applyAll now s msgs.reverse).combined_stocks ∧
      List.Perm (applyAll now s msgs).tw_stocks (applyAll now s msgs.reverse).tw_stocks ∧
      List.Perm (applyAll now s msgs).us_stocks (applyAll now s msgs.reverse).us_stocks ∧
      List.Perm (applyAll now s msgs).combined_tw_stocks
        (applyAll now s msgs.reverse).combined_tw_stocks ∧
      List.Perm (applyAll now s msgs).combined_us_stocks
        (applyAll now s msgs.reverse).combined_us_stocks := by
  subst hmsgs
  have hrev : ((FetchMessage.exchangeRate r ::
      prices.map fun p => FetchMessage.price p.1 p.2) ++ [FetchMessage.batchComplete]).reverse =
      FetchMessage.batchComplete ::
        ((prices.map fun p => FetchMessage.price p.1 p.2).reverse ++
          [FetchMessage.exchangeRate r]) := by
    simp
  have hpf : pricesOf ((FetchMessage.exchangeRate r ::
      prices.map fun p => FetchMessage.price p.1 p.2) ++ [FetchMessage.batchComplete]) =
      prices := by
    simp [pricesOf, pricesOf_append, pricesOf_map]
  have hmaprev : (prices.map fun p => FetchMessage.price p.1 p.2).reverse =
      prices.reverse.map fun p => FetchMessage.price p.1 p.2 := by
    rw [List.map_reverse]
  have hpfrev : pricesOf (((FetchMessage.exchangeRate r ::
      prices.map fun p => FetchMessage.price p.1 p.2) ++ [FetchMessage.batchComplete]).reverse) =
      prices.reverse := by
    rw [hrev]
    simp only [pricesOf, pricesOf_append, List.append_nil]
    rw [hmaprev, pricesOf_map]
  have hndrev : (prices.reverse.map Prod.fst).Nodup := by
    rw [List.map_reverse]
    exact List.nodup_reverse.mpr hnd
  have hnorateP : ∀ r2 : ℚ, FetchMessage.exchangeRate r2 ∉
      (prices.map fun p => FetchMessage.price p.1 p.2) := by
    intro r2 hm
    rw [List.mem_map] at hm
    obtain ⟨p, _, hp⟩ := hm
    exact FetchMessage.noConfusion hp
  have hnocomp : FetchMessage.batchComplete ∉
      ((prices.map fun p => FetchMessage.price p.1 p.2).reverse ++
        [FetchMessage.exchangeRate r]) := by
    intro hmem
    rw [List.mem_append] at hmem
    rcases hmem with hm | hm
    · rw [List.mem_reverse, List.mem_map] at hm
      obtain ⟨p, _, hp⟩ := hm
      exact FetchMessage.noConfusion hp
    · rw [List.mem_singleton] at hm
      exact FetchMessage.noConfusion hm
  have hndL : ((pricesOf ((FetchMessage.exchangeRate r ::
      prices.map fun p => FetchMessage.price p.1 p.2) ++
        [FetchMessage.batchComplete])).map Prod.fst).Nodup := by
    rw [hpf]
    exact hnd
  have hndR : ((pricesOf (((FetchMessage.exchangeRate r ::
      prices.map fun p => FetchMessage.price p.1 p.2) ++
        [FetchMessage.batchComplete]).reverse)).map Prod.fst).Nodup := by
    rw [hpfrev]
    exact hndrev
  refine ⟨?_, ?_, ?_, ?_, ?_, ?_, ?_, ?_, ?_, ?_⟩
  · have hF : (applyAll now s ((FetchMessage.exchangeRate r ::
        prices.map fun p => FetchMessage.price p.1 p.2) ++
          [FetchMessage.batchComplete])).usd_twd_rate = r := by
      rw [applyAll_snoc, applyAll_cons]
      show (applyAll now (applyMsg now s (FetchMessage.exchangeRate r))
        (prices.map fun p => FetchMessage.price p.1 p.2)).usd_twd_rate = r
      rw [rate_pres now _ _ hnorateP]
      rfl
    have hB : (applyAll now s (((FetchMessage.exchangeRate r ::
        prices.map fun p => FetchMessage.price p.1 p.2) ++
          [FetchMessage.batchComplete]).reverse)).usd_twd_rate = r := by
      rw [hrev, applyAll_cons, applyAll_snoc]
      rfl
    exact hF.trans hB.symm
  · have hF : (applyAll now s ((FetchMessage.exchangeRate r ::
        prices.map fun p => FetchMessage.price p.1 p.2) ++
          [FetchMessage.batchComplete])).is_fetching = false := by
      rw [applyAll_snoc]
      rfl
    have hB : (applyAll now s (((FetchMessage.exchangeRate r ::
        prices.map fun p => FetchMessage.price p.1 p.2) ++
          [FetchMessage.batchComplete]).reverse)).is_fetching = false := by
      rw [hrev, applyAll_cons]
      exact (fetching_pres now _ _ hnocomp).1
    exact hF.trans hB.symm
  · have hF : (applyAll now s ((FetchMessage.exchangeRate r ::
        prices.map fun p => FetchMessage.price p.1 p.2) ++
          [FetchMessage.batchComplete])).last_update = now := by
      rw [applyAll_snoc]
      rfl
    have hB : (applyAll now s (((FetchMessage.exchangeRate r ::
        prices.map fun p => FetchMessage.price p.1 p.2) ++
          [FetchMessage.batchComplete]).reverse)).last_update = now := by
      rw [hrev, applyAll_cons]
      exact (fetching_pres now _ _ hnocomp).2
    exact hF.trans hB.symm
  · intro sym
    rw [cache_applyAll now _ s sym hndL, cache_applyAll now _ s sym hndR, hpf, hpfrev,
      lookupPrice_reverse prices sym hnd]
  · have hL := (stocks_applyAll now _ s hndL).1
    have hR := (stocks_applyAll now _ s hndR).1
    rw [hpf] at hL
    rw [hpfrev, patchFun_reverse prices hnd] at hR
    rw [hL, hR]
  · have hL := (stocks_applyAll now _ s hndL).2
    have hR := (stocks_applyAll now _ s hndR).2
    rw [hpf] at hL
    rw [hpfrev, patchFun_reverse prices hnd] at hR
    rw [hL, hR]
  · have pL := (perm_applyAll now _ s hndL).1
    have pR := (perm_applyAll now _ s hndR).1
    rw [hpf] at pL
    rw [hpfrev, patchFun_reverse prices hnd] at pR
    exact pL.trans pR.symm
  · have pL := (perm_applyAll now _ s hndL).2.1
    have pR := (perm_applyAll now _ s hndR).2.1
    rw [hpf] at pL
    rw [hpfrev, patchFun_reverse prices hnd] at pR
    exact pL.trans pR.symm
  · have pL := (perm_applyAll now _ s hndL).2.2.1
    have pR := (perm_applyAll now _ s hndR).2.2.1
    rw [hpf] at pL
    rw [hpfrev, patchFun_reverse prices hnd] at pR
    exact pL.trans pR.symm
  · have pL := (perm_applyAll now _ s hndL).2.2.2
    have pR := (perm_applyAll now _ s hndR).2.2.2
    rw [hpf] at pL
    rw [hpfrev, patchFun_reverse prices hnd] at pR
    exact pL.trans pR.symm

/-- C5 witness: the reordering theorem applied to the concrete two-symbol
batch on the example state. -/
theorem C5_batch_reverse_order_witness :
    (applyAll 5 exampleState exampleMsgs).usd_twd_rate =
        (applyAll 5 exampleState exampleMsgs.reverse).usd_twd_rate ∧
      List.Perm (applyAll 5 exampleState exampleMsgs).us_stocks
        (applyAll 5 exampleState exampleMsgs.reverse).us_stocks :=
  ⟨(C5_batch_reverse_order
      [("A", some { price := 1, change := 1, change_percent := 1 }),
       ("B", some { price := 2, change := 2, change_percent := 2 })]
      30 5 exampleState exampleMsgs rfl (by decide)).1,
   (C5_batch_reverse_order
      [("A", some { price := 1, change := 1, change_percent := 1 }),
       ("B", some { price := 2, change := 2, change_percent := 2 })]
      30 5 exampleState exampleMsgs rfl (by decide)).2.2.2.2.2.2.2.1⟩

unseal Rat.add Rat.mul Rat.inv Rat.sub in
/-- C5 counterexample: on the very same concrete batch, forward and reverse
application leave the sorted US list in *different orders* (descending
change-percent puts B first forward, while the reverse order sorts before the
quotes land and keeps A first), so the claim's "same final state ... and the
derived sorted orderings" is false as stated. -/
theorem C5_batch_reverse_order_cex :
    exampleMsgs = (FetchMessage.exchangeRate 30 ::
        [(("A" : String), some { price := 1, change := 1, change_percent := 1 }),
         (("B" : String), some { price := 2, change := 2, change_percent := 2 })].map
          fun p => FetchMessage.price p.1 p.2) ++ [FetchMessage.batchComplete] ∧
      ¬(applyAll 5 exampleState exampleMsgs).us_stocks =
        (applyAll 5 exampleState exampleMsgs.reverse).us_stocks :=
  ⟨rfl, by decide⟩
